import Mathlib

/-!
Verification of the mclazy update pipeline (src/mclazy.py).

This file gives a shallow embedding of the per-package update pipeline of
mclazy: the lock handling, the remote-version selection, the version
comparison, the spec-file rewriting and the ordered build/publish stages,
together with theorems settling the specification's claims about them.

Python strings are modelled as `List Char`.  The two `re.sub` calls of the
source are modelled by an executable regex-substitution function with the
exact leftmost, non-overlapping, greedy semantics of Python's `re.sub` for
the patterns `([0-9]+).(alpha|beta|rc)` and `([0-9]+)~(alpha|beta|rc)`.
External collaborators that are not code of this repository (`rpm`'s
version comparison, `fnmatch`) are modelled from the spec, as marked.
-/

/-- Strings are modelled as lists of characters. -/
abbrev Str := List Char

/-- View a Lean string literal as the model's string type. -/
def str (s : String) : Str := s.data

/-- Numeric value of a run of decimal digits. -/
def digitsToNat (l : List Char) : Nat :=
  l.foldl (fun acc c => 10 * acc + (c.toNat - '0'.toNat)) 0

/-- Modelled from the spec: one segment of a version string, as used by the
Version Comparator (`rpm.labelCompare`, which is not part of src/).  Spec
§4.2: version strings split into alternating alphabetic/numeric segments;
the canonical pre-release token (`tilde`) sorts strictly below everything
else; `ending` is a virtual end-of-string segment sorting below ordinary
segments (so a version that is a proper extension of another by an ordinary
segment is newer, while a `~` suffix makes it older). -/
inductive Seg where
  | tilde : Seg
  | ending : Seg
  | alph : List Char → Seg
  | num : Nat → Seg
deriving DecidableEq

/-- Rank of the segment kind: tilde < end-of-string < alphabetic < numeric. -/
def Seg.rank : Seg → Nat
  | .tilde => 0
  | .ending => 1
  | .alph _ => 2
  | .num _ => 3

/-- Three-way comparison induced by a linear order. -/
def cmpOf {α : Type} [LinearOrder α] (a b : α) : Ordering :=
  if a < b then .lt else if b < a then .gt else .eq

/-- Lexicographic three-way comparison of lists with element comparison `c`. -/
def lexCmp {α : Type} (c : α → α → Ordering) : List α → List α → Ordering
  | [], [] => .eq
  | [], _ :: _ => .lt
  | _ :: _, [] => .gt
  | a :: as, b :: bs =>
    match c a b with
    | .eq => lexCmp c as bs
    | o => o

/-- Comparison of single segments: by rank first, then numerically for
numeric segments and lexically for alphabetic segments (spec §4.2). -/
def scmp : Seg → Seg → Ordering
  | .alph s, .alph t => lexCmp cmpOf s t
  | .num m, .num n => cmpOf m n
  | a, b => cmpOf a.rank b.rank

/-- Modelled from the spec: split a version string into segments.  Runs of
digits become numeric segments (so leading zeros compare equal), runs of
letters become alphabetic segments, `~` becomes the pre-release token, and
any other character is a separator.  Fuel-driven to keep it structural; the
fuel `l.length` always suffices. -/
def tokenGo : Nat → List Char → List Seg
  | 0, _ => []
  | _ + 1, [] => []
  | f + 1, c :: r =>
    if c = '~' then Seg.tilde :: tokenGo f r
    else if c.isDigit then
      Seg.num (digitsToNat (c :: r.takeWhile Char.isDigit)) ::
        tokenGo f (r.dropWhile Char.isDigit)
    else if c.isAlpha then
      Seg.alph (c :: r.takeWhile Char.isAlpha) ::
        tokenGo f (r.dropWhile Char.isAlpha)
    else tokenGo f r

/-- Segment key of a version string: its segments followed by the virtual
end-of-string segment. -/
def verkey (v : Str) : List Seg := tokenGo v.length v ++ [Seg.ending]

/-- Modelled from the spec: `rpm.labelCompare((None, a, None), (None, b, None))`
as used on lines 294, 307 and 322 of src/mclazy.py (§4.2 `compare`). -/
def labelCompare (a b : Str) : Ordering := lexCmp scmp (verkey a) (verkey b)

/-! ### The regex substitutions of lines 243, 285 and 306

`re.sub('([0-9]+)<sep>(alpha|beta|rc)', r'\1<rep>\2', s)` where `<sep>` is
either the unescaped `.` (any character but newline) or the literal `~`. -/

/-- The literal `alpha` of the regex alternation. -/
def alphaL : Str := str "alpha"

/-- The literal `beta` of the regex alternation. -/
def betaL : Str := str "beta"

/-- The literal `rc` of the regex alternation. -/
def rcL : Str := str "rc"

/-- The three pre-release literals, in the regex's alternation order. -/
def lits : List Str := [alphaL, betaL, rcL]

/-- Read one of the literals `alpha`/`beta`/`rc` at the head of `l`, in the
regex's alternation order; return the literal and the rest of the list. -/
def litSplit (l : List Char) : Option (Str × List Char) :=
  if l.take 5 = alphaL then some (alphaL, l.drop 5)
  else if l.take 4 = betaL then some (betaL, l.drop 4)
  else if l.take 2 = rcL then some (rcL, l.drop 2)
  else none

/-- Greedy backtracking search for a match of `([0-9]+)<sep>(alpha|beta|rc)`
anchored at a position whose maximal digit run has been split into `drev`
(the digits the group `[0-9]+` may still consume, in reverse) and `tail`.
The longest digit run is tried first, shrinking one digit at a time, exactly
like the regex engine's greedy backtracking.  On success it returns the
matched digits, the separator character, the matched literal and the rest of
the input. -/
def trySplit (sepOk : Char → Bool) : List Char → List Char → Option (Str × Char × Str × List Char)
  | [], _ => none
  | d :: ds, tail =>
    match tail with
    | sep :: t2 =>
      if sepOk sep then
        match litSplit t2 with
        | some (lit, rest) => some ((d :: ds).reverse, sep, lit, rest)
        | none => trySplit sepOk ds (d :: tail)
      else trySplit sepOk ds (d :: tail)
    | [] => trySplit sepOk ds (d :: tail)

/-- Leftmost-anchored match of `([0-9]+)<sep>(alpha|beta|rc)` at the head of
`l`. -/
def matchAt (sepOk : Char → Bool) (l : List Char) : Option (Str × Char × Str × List Char) :=
  trySplit sepOk (l.takeWhile Char.isDigit).reverse (l.dropWhile Char.isDigit)

/-- The scan of `re.sub`: try a match at every position from the left; on a
match, emit `\1<rep>\2` and continue after the match, otherwise advance one
character.  Fuel-driven to keep it structural; fuel `l.length` suffices. -/
def presubGo (sepOk : Char → Bool) (rep : Char) : Nat → List Char → List Char
  | 0, l => l
  | _ + 1, [] => []
  | f + 1, c :: r =>
    match matchAt sepOk (c :: r) with
    | some (d, _, lit, rest) => d ++ rep :: (lit ++ presubGo sepOk rep f rest)
    | none => c :: presubGo sepOk rep f r

/-- `re.sub('([0-9]+)<sep>(alpha|beta|rc)', r'\1<rep>\2', l)`. -/
def presub (sepOk : Char → Bool) (rep : Char) (l : List Char) : List Char :=
  presubGo sepOk rep l.length l

/-- The separator of the pattern `([0-9]+).(alpha|beta|rc)`: the unescaped
regex dot, matching any character except a newline. -/
def nonNl (c : Char) : Bool := c != '\n'

/-- The separator of the pattern `([0-9]+)~(alpha|beta|rc)`: the literal `~`. -/
def isTilde (c : Char) : Bool := c == '~'

/-- Lines 285 and 306: `re.sub('([0-9]+).(alpha|beta|rc)', r'\1~\2', v)`. -/
def normalizeVer (v : Str) : Str := presub nonNl '~' v

/-- Line 243: `version_dot = re.sub('([0-9]+)~(alpha|beta|rc)', r'\1.\2', version)`. -/
def dotify (v : Str) : Str := presub isTilde '.' v

/-- `l` has a match of `([0-9]+)<sep>(alpha|beta|rc)` at its head: it splits
as a nonempty digit run, an admissible separator and one of the literals. -/
def HasM (sepOk : Char → Bool) (l : List Char) : Prop :=
  ∃ D sep L rest, l = D ++ sep :: (L ++ rest) ∧ D ≠ [] ∧
    (∀ x ∈ D, x.isDigit = true) ∧ sepOk sep = true ∧ L ∈ lits

/-- Pointwise relation between a string and its image under one substitution
pass of `normalizeVer`: every character is kept, or is not a newline and is
replaced by `~`. -/
inductive Tld : List Char → List Char → Prop where
  | nil : Tld [] []
  | keep (c : Char) {a b : List Char} : Tld a b → Tld (c :: a) (c :: b)
  | chg (c : Char) {a b : List Char} : c ≠ '\n' → Tld a b → Tld (c :: a) ('~' :: b)

/-! ### Glob matching and string splitting -/

/-- Python `s.split(sep)` for a single-character separator. -/
def splitOn (sep : Char) : List Char → List (List Char)
  | [] => [[]]
  | c :: r =>
    match splitOn sep r with
    | [] => [[c]]
    | h :: t => if c = sep then [] :: h :: t else (c :: h) :: t

/-- Scan a glob character-class body for its closing `]`, returning the body
and the rest of the pattern. -/
def classScan : Nat → List Char → Option (List Char × List Char)
  | 0, _ => none
  | _ + 1, [] => none
  | f + 1, c :: r =>
    if c = ']' then some ([], r)
    else (classScan f r).map (fun p => (c :: p.1, p.2))

/-- Split a glob character class at its closing `]`; a `]` in the first
position is a literal member, as in `fnmatch`. -/
def classBody : List Char → Option (List Char × List Char)
  | [] => none
  | c :: r =>
    if c = ']' then (classScan r.length r).map (fun p => (']' :: p.1, p.2))
    else classScan (c :: r).length (c :: r)

/-- Interpret a character-class body as a list of (lo, hi) ranges; a single
character `c` is the range (c, c). -/
def classRanges : Nat → List Char → List (Char × Char)
  | 0, _ => []
  | _ + 1, [] => []
  | f + 1, a :: '-' :: b :: r => (a, b) :: classRanges f r
  | f + 1, a :: r => (a, a) :: classRanges f r

/-- Modelled from the spec: glob matching of one pattern alternative against
a version string (`fnmatch.fnmatch`, Python stdlib, case-sensitive on
POSIX): `*` matches any run, `?` any single character, `[...]`/`[!...]`
character classes with ranges, everything else literally.  Fuel-driven; the
fuel in `globMatch` always suffices. -/
def globGo : Nat → List Char → List Char → Bool
  | 0, _, _ => false
  | _ + 1, [], s => s.isEmpty
  | f + 1, '*' :: p, s =>
    globGo f p s ||
      (match s with
       | [] => false
       | _ :: s2 => globGo f ('*' :: p) s2)
  | f + 1, '?' :: p, s =>
    (match s with
     | [] => false
     | _ :: s2 => globGo f p s2)
  | f + 1, '[' :: p, s =>
    let negp : Bool × List Char := match p with
      | '!' :: p2 => (true, p2)
      | _ => (false, p)
    (match classBody negp.2 with
     | none =>
       -- no closing `]`: the `[` is literal
       (match s with
        | '[' :: s2 => globGo f p s2
        | _ => false)
     | some (body, prest) =>
       (match s with
        | [] => false
        | c :: s2 =>
          let inCls := (classRanges body.length body).any
            (fun pr => decide (pr.1 ≤ c) && decide (c ≤ pr.2))
          if inCls != negp.1 then globGo f prest s2 else false))
  | f + 1, c :: p, s =>
    (match s with
     | c2 :: s2 => c == c2 && globGo f p s2
     | [] => false)

/-- `fnmatch.fnmatch(s, p)` (modelled from the spec). -/
def globMatch (p s : Str) : Bool := globGo (p.length + s.length + 1) p s

/-- Lines 286-290: a remote version is accepted when it fnmatches any of the
comma-separated glob alternatives of the branch's acceptance pattern. -/
def matchesAny (v pat : Str) : Bool := (splitOn ',' pat).any (fun b => globMatch b v)

/-! ### Spec-file rewriting (lines 53-58, 117-123, 371-385) -/

/-- `l.find(c) != -1`: does the list contain the character `c`? -/
def containsC (c : Char) : List Char → Bool
  | [] => false
  | x :: r => x == c || containsC c r

/-- `l.rsplit(c, 1)[0]` for a list that contains `c`: everything before the
last occurrence of `c`. -/
def rsplitPre (c : Char) (l : List Char) : List Char :=
  ((l.reverse.dropWhile (fun x => x != c)).drop 1).reverse

/-- Lines 53-58: `replace_spec_value(line, replace)`.  If the line contains a
space, replace everything after the last space; otherwise, if it contains a
tab, replace everything after the last tab; otherwise return the line
unchanged. -/
def replace_spec_value (line rep : Str) : Str :=
  if containsC ' ' line then rsplitPre ' ' line ++ ' ' :: rep
  else if containsC '\t' line then rsplitPre '\t' line ++ '\t' :: rep
  else line

/-- Lines 117-123: `majorminor(ver)`: the first dot component for the new
GNOME 40+ scheme, otherwise the first two dot components.  For a version
with no `.` Python raises IndexError on `v[1]`; the model returns an empty
second component there (no claim depends on such an input). -/
def majorminor (ver : Str) : Str :=
  let v := splitOn '.' ver
  let v0 := v.headD []
  if v0 = str "40" ∨ v0 = str "41" ∨ v0 = str "42" then v0
  else v0 ++ '.' :: (v.drop 1).headD []

/-- Match a regex pattern made of literal characters and unescaped `.`
wildcards (any character but newline) against the head of `l`, returning the
rest after the match. -/
def patMatch : List Char → List Char → Option (List Char)
  | [], l => some l
  | _ :: _, [] => none
  | p :: ps, c :: cs =>
    if p = '.' then (if c = '\n' then none else patMatch ps cs)
    else if p = c then patMatch ps cs
    else none

/-- The scan of `re.sub` for such a pattern with a literal replacement. -/
def subFixedGo (p0 : Char) (ps rep : List Char) : Nat → List Char → List Char
  | 0, l => l
  | _ + 1, [] => []
  | f + 1, c :: r =>
    match patMatch (p0 :: ps) (c :: r) with
    | some rest => rep ++ subFixedGo p0 ps rep f rest
    | none => c :: subFixedGo p0 ps rep f r

/-- Line 381: `re.sub("/<majorminor>/", "/<majorminor>/", line)` where the
pattern is a nonempty literal-and-dot pattern. -/
def subFixed (pat rep l : List Char) : List Char :=
  match pat with
  | [] => l
  | p0 :: ps => subFixedGo p0 ps rep l.length l

/-- `line.startswith(p)`. -/
def startsW (p l : Str) : Bool := l.take p.length == p

/-- `p in line` (substring containment). -/
def hasSub (p l : Str) : Bool := l.tails.any (fun t => startsW p t)

/-- Lines 375-384: the rewrite of one spec-file line.  `Version:` lines get
the tilde-normalized new version, `Release:` lines without `autorelease` are
reset to `0%{?dist}`, `Source:`/`Source0:` lines have the old majorminor
path segment replaced by the new one, and every other line is copied
unchanged.  Each line carries its trailing newline, as Python's file
iteration yields it. -/
def processLine (newTilde versionDot newVer : Str) (line : Str) : Str :=
  if startsW (str "Version:") line then
    replace_spec_value line (newTilde ++ ['\n'])
  else if startsW (str "Release:") line && !hasSub (str "autorelease") line then
    replace_spec_value line (str "0%\x7b?dist\x7d" ++ ['\n'])
  else if startsW (str "Source:") line || startsW (str "Source0:") line then
    subFixed ('/' :: (majorminor versionDot ++ ['/'])) ('/' :: (majorminor newVer ++ ['/'])) line
  else line

/-- Lines 373-385: the rewrite of the whole spec file, line by line. -/
def processSpec (newTilde versionDot newVer : Str) (file : List Str) : List Str :=
  file.map (processLine newTilde versionDot newVer)

/-! ### The per-package pipeline (the body of the loop of `main`, lines 179-487)

One package's processing is embedded as a pure function from the command
line flags and an environment of external outcomes (filesystem state,
process liveness, exit codes of external commands, network results, remote
metadata) to a result: the ordered trace of effects performed, the final
outcome, whether the lock marker file still exists at the end of the
package's processing, and the final value of the Python variable `pid`. -/

/-- Command line flags that the per-package pipeline reads (lines 133-143). -/
structure Args where
  simulate : Bool
  checkInstalled : Bool
  relaxVersionChecks : Bool
  noBuild : Bool
  noMockbuild : Bool
  noRawhideSync : Bool
  fedoraBranch : Str
deriving DecidableEq

/-- Environment of one package run: every externally determined outcome the
loop body observes, in the order the code consults them. -/
structure Env where
  /-- `os.path.exists(lock_filename)` at line 186. -/
  markerExists : Bool
  /-- result of `int(f.read())` at line 191: `some pid`, or `none` on ValueError. -/
  markerVal : Option Nat
  /-- `os.path.isdir("/proc/%i" % pid)` at line 192. -/
  ownerAlive : Bool
  /-- the binding of the Python variable `pid` left by earlier loop iterations. -/
  pidPrev : Option Nat
  /-- `os.getpid()` at line 206. -/
  myPid : Nat
  /-- `os.path.isdir(cache/pkg)` at line 211. -/
  pkgDirExists : Bool
  /-- `fedpkg co` succeeded (line 212). -/
  checkoutOk : Bool
  /-- `git fetch` succeeded (line 218). -/
  fetchOk : Bool
  /-- `switch_branch_and_reset` succeeded (line 224). -/
  switchOk : Bool
  /-- `os.path.exists(spec_filename)` at line 234. -/
  specExists : Bool
  /-- the version of the parsed spec file (line 242), `none` on ValueError. -/
  specVersion : Option Str
  /-- success of the i-th `urlretrieve` of `cache.json` (line 254), 1-based. -/
  netOk : Nat → Bool
  /-- `json.loads` succeeded (line 275). -/
  jsonOk : Bool
  /-- `j[2][module]`: the published remote version strings, in iteration order. -/
  remoteVersions : List Str
  /-- `release_version[args.fedora_branch]` (line 263): the acceptance pattern. -/
  pattern : Str
  /-- `installed_pkgs[pkg]` when present (line 316). -/
  installed : Option Str
  /-- `os.path.exists(pkg + "/" + dest_tarball)` at line 352. -/
  tarballExists : Bool
  /-- tarball `urlretrieve` succeeded (line 358). -/
  tarballDlOk : Bool
  /-- `fedpkg new-sources` succeeded (line 365). -/
  newSourcesOk : Bool
  /-- `fedpkg prep` succeeded (line 393). -/
  prepOk : Bool
  /-- `fedpkg mockbuild` succeeded (line 400). -/
  mockOk : Bool
  /-- `glob.glob(resultsglob)` nonempty (line 407). -/
  mockResults : Bool
  /-- `git commit` succeeded (line 413). -/
  commitOk : Bool
  /-- `git push` succeeded (line 425). -/
  pushOk : Bool
  /-- `fedpkg build` succeeded (line 459/461). -/
  buildOk : Bool

/-- Observable effects of one package run, in order. -/
inductive Ev where
  /-- line 205: create/overwrite the lock marker with the given pid. -/
  | lockWrite : Nat → Ev
  /-- `os.unlink(lock_filename)` inside `unlock_file` (only when the marker exists). -/
  | unlink : Ev
  /-- `fedpkg co` (line 212). -/
  | checkout : Ev
  /-- `git fetch` (line 218). -/
  | gitFetch : Ev
  /-- `switch_branch_and_reset` (line 224). -/
  | branchSwitch : Ev
  /-- `urlretrieve` of `cache.json`, attempt i (line 254). -/
  | netTry : Nat → Ev
  /-- tarball `urlretrieve` (line 358). -/
  | download : Ev
  /-- `fedpkg new-sources` (line 365). -/
  | newSources : Ev
  /-- the spec file rewrite and rename (lines 373-385). -/
  | specRewrite : Ev
  /-- `rpmdev-bumpspec` (line 390). -/
  | bumpspec : Ev
  /-- `fedpkg prep` (line 393). -/
  | prep : Ev
  /-- `fedpkg mockbuild` (line 400). -/
  | mockbuild : Ev
  /-- `git commit -a` (line 413). -/
  | commit : Ev
  /-- `git push` (line 425). -/
  | push : Ev
  /-- `sync_to_rawhide_branch` and the checkout back (lines 433-434). -/
  | rawhideSync : Ev
  /-- `fedpkg build` (line 459/461). -/
  | build : Ev
deriving DecidableEq

/-- Final outcome of one package run. -/
inductive Outcome where
  /-- line 199: a live competing owner holds the lock; skip, marker untouched. -/
  | skippedLiveLock : Outcome
  /-- line 202 with `pid` unbound: `print_fail("... %i ..." % pid)` raises
  UnboundLocalError, which nothing catches: the whole program dies. -/
  | crashed : Outcome
  | failCheckout : Outcome
  | failFetch : Outcome
  | failSwitch : Outcome
  | failNoSpec : Outcome
  | failSpecParse : Outcome
  /-- line 259: all fetch attempts failed. -/
  | failNet : Outcome
  | failJson : Outcome
  /-- line 298: no remote version matching the branch pattern. -/
  | failNoMatching : Outcome
  /-- line 324: installed version newer than the branch's newest version. -/
  | failInstalledNewer : Outcome
  /-- line 330: no update required; benign skip. -/
  | noUpdates : Outcome
  /-- line 340: major version jump with the guard active. -/
  | failMajor : Outcome
  | failTarball : Outcome
  | failNewSources : Outcome
  | failPrep : Outcome
  | failMock : Outcome
  | failMockNoResults : Outcome
  | failCommit : Outcome
  /-- line 420: simulate mode stops before the push; benign end. -/
  | simulatedNoPush : Outcome
  | failPush : Outcome
  | failReleaseTag : Outcome
  | failBuild : Outcome
  | failBranchTag : Outcome
  | done : Outcome
deriving DecidableEq

/-- Result of one package run. -/
structure RunRes where
  /-- ordered trace of performed effects. -/
  trace : List Ev
  outcome : Outcome
  /-- whether the lock marker file exists when the package's processing ends. -/
  lockFinal : Bool
  /-- the binding of the Python variable `pid` afterwards. -/
  pidAfter : Option Nat
deriving DecidableEq

/-- `unlock_file` (lines 60-62) followed by `continue`: delete the marker if
it exists (emitting `unlink` only then) and end this package's processing. -/
def abortRun (tr : List Ev) (lock : Bool) (o : Outcome) (pid : Option Nat) : RunRes :=
  RunRes.mk (tr ++ (if lock then [Ev.unlink] else [])) o false pid

/-- The retry loop of lines 252-258: `for i in range(1, 20)`, breaking on the
first success.  Returns the 1-based indices of the attempts made, in order,
and whether one succeeded. -/
def netGo (ok : Nat → Bool) : Nat → Nat → List Nat × Bool
  | _, 0 => ([], false)
  | i, f + 1 =>
    if ok i then ([i], true)
    else
      let r := netGo ok (i + 1) f
      (i :: r.1, r.2)

/-- The attempts of the fetch loop: `range(1, 20)` makes 19 iterations. -/
def netAttempts (ok : Nat → Bool) : List Nat × Bool := netGo ok 1 19

/-- `[i, i+1, ..., i+f-1]`. -/
def consec : Nat → Nat → List Nat
  | _, 0 => []
  | i, f + 1 => i :: consec (i + 1) f

/-- The string `'0'`, the initial value of `newest_remote_version` (line 282). -/
def strZero : Str := ['0']

/-- State of the version-selection loop of lines 284-297: the best raw and
tilde-normalized versions so far, whether the lock marker still exists, and
the effects emitted so far by the loop. -/
structure SelSt where
  newest : Str
  newestTilde : Str
  lock : Bool
  evs : List Ev
deriving DecidableEq

/-- One iteration of the selection loop (lines 284-297).  A version failing
every glob alternative triggers `unlock_file(lock_filename); continue` —
the `continue` continues this inner loop, so the run goes on with the lock
marker deleted.  A matching version replaces the current best when its
tilde-normalized form compares greater. -/
def selStep (pat : Str) (st : SelSt) (v : Str) : SelSt :=
  let vt := normalizeVer v
  if matchesAny v pat = false then
    if st.lock then SelSt.mk st.newest st.newestTilde false (st.evs ++ [Ev.unlink]) else st
  else if labelCompare vt st.newestTilde = .gt then
    SelSt.mk v vt st.lock st.evs
  else st

/-- The whole selection loop, starting from `'0'`/`'0'` with the lock held. -/
def selectLoop (pat : Str) (vs : List Str) : SelSt :=
  vs.foldl (selStep pat) (SelSt.mk strZero strZero true [])

/-- Lines 314-327: does the check-installed block abort the run?  Only when
the lookup is on, the package has an installed version that differs (as a
string) from the newest raw remote version, and it compares strictly
greater than the tilde-normalized newest. -/
def installedAborts (a : Args) (e : Env) (newest newestTilde : Str) : Bool :=
  a.checkInstalled &&
    (match e.installed with
     | some inst => decide (inst ≠ newest) && decide (labelCompare inst newestTilde = .gt)
     | none => false)

/-- The branches the release-tag and build-branch tables know (lines 437-450
and 468-481). -/
def branchKnown (b : Str) : Bool :=
  b == str "f39" || b == str "f40" || b == str "f41" || b == str "f42" || b == str "rawhide"

/-- Lines 412-487: commit, push, rawhide sync, release tag, build and branch
tag; ends with the final `unlock_file`. -/
def phaseCommit (a : Args) (e : Env) (tr : List Ev) (pid : Option Nat) (lock : Bool) : RunRes :=
  let tr := tr ++ [Ev.commit]
  if e.commitOk = false then abortRun tr lock .failCommit pid
  else if a.simulate then abortRun tr lock .simulatedNoPush pid
  else
    let tr := tr ++ [Ev.push]
    if e.pushOk = false then abortRun tr lock .failPush pid
    else
      let tr := tr ++ (if !a.noRawhideSync && a.fedoraBranch ≠ str "rawhide"
                       then [Ev.rawhideSync] else [])
      if branchKnown a.fedoraBranch = false then abortRun tr lock .failReleaseTag pid
      else
        if a.noBuild then
          if branchKnown a.fedoraBranch = false then abortRun tr lock .failBranchTag pid
          else abortRun tr lock .done pid
        else
          let tr := tr ++ [Ev.build]
          if e.buildOk = false then abortRun tr lock .failBuild pid
          else if branchKnown a.fedoraBranch = false then abortRun tr lock .failBranchTag pid
          else abortRun tr lock .done pid

/-- Lines 371-410: spec rewrite, rpmdev-bumpspec (its exit code is ignored),
fedpkg prep and the optional mock build with its artifact check. -/
def phaseRewrite (a : Args) (e : Env) (tr : List Ev) (pid : Option Nat) (lock : Bool) : RunRes :=
  let tr := tr ++ [Ev.specRewrite, Ev.bumpspec, Ev.prep]
  if e.prepOk = false then abortRun tr lock .failPrep pid
  else if a.noMockbuild then phaseCommit a e tr pid lock
  else
    let tr := tr ++ [Ev.mockbuild]
    if e.mockOk = false then abortRun tr lock .failMock pid
    else if e.mockResults = false then abortRun tr lock .failMockNoResults pid
    else phaseCommit a e tr pid lock

/-- Lines 349-369: tarball download and (outside simulate mode) the
new-sources upload; both only when the tarball is not already cached. -/
def phaseUpdate (a : Args) (e : Env) (tr : List Ev) (pid : Option Nat) (lock : Bool) : RunRes :=
  if e.tarballExists then phaseRewrite a e tr pid lock
  else
    let tr := tr ++ [Ev.download]
    if e.tarballDlOk = false then abortRun tr lock .failTarball pid
    else if a.simulate then phaseRewrite a e tr pid lock
    else
      let tr := tr ++ [Ev.newSources]
      if e.newSourcesOk = false then abortRun tr lock .failNewSources pid
      else phaseRewrite a e tr pid lock

/-- Lines 305-342: recompute the tilde form of the newest version (line 306),
decide whether an update is required (lines 307-312), run the
check-installed block (lines 314-327), take the benign no-update exit
(lines 330-333) and enforce the major-version guard (lines 335-342). -/
def phaseDecide (a : Args) (e : Env) (tr : List Ev) (pid : Option Nat)
    (version versionDot newest : Str) (lock : Bool) : RunRes :=
  let newestTilde := normalizeVer newest
  if installedAborts a e newest newestTilde then abortRun tr lock .failInstalledNewer pid
  else if labelCompare newestTilde version ≠ .gt then abortRun tr lock .noUpdates pid
  else if !a.relaxVersionChecks &&
      decide ((splitOn '.' newest).headD [] ≠ (splitOn '.' versionDot).headD []) then
    abortRun tr lock .failMajor pid
  else phaseUpdate a e tr pid lock

/-- Lines 281-302: the selection loop and the `'0'` sentinel check. -/
def phaseSelect (a : Args) (e : Env) (tr : List Ev) (pid : Option Nat)
    (version versionDot : Str) : RunRes :=
  let st := selectLoop e.pattern e.remoteVersions
  let tr := tr ++ st.evs
  if st.newest = strZero then abortRun tr st.lock .failNoMatching pid
  else phaseDecide a e tr pid version versionDot st.newest st.lock

/-- Lines 265-279: parse the downloaded JSON. -/
def phaseJson (a : Args) (e : Env) (tr : List Ev) (pid : Option Nat)
    (version versionDot : Str) : RunRes :=
  if e.jsonOk then phaseSelect a e tr pid version versionDot
  else abortRun tr true .failJson pid

/-- Lines 250-261: the bounded fetch loop; every attempt (each failure is
surfaced) appears in the trace, and the run aborts when none succeeds. -/
def phaseNet (a : Args) (e : Env) (tr : List Ev) (pid : Option Nat)
    (version versionDot : Str) : RunRes :=
  let na := netAttempts e.netOk
  let tr := tr ++ na.1.map Ev.netTry
  if na.2 then phaseJson a e tr pid version versionDot
  else abortRun tr true .failNet pid

/-- Lines 230-248: spec file existence and parse; computes `version_dot`. -/
def phaseSpecFile (a : Args) (e : Env) (tr : List Ev) (pid : Option Nat) : RunRes :=
  if e.specExists = false then abortRun tr true .failNoSpec pid
  else
    match e.specVersion with
    | none => abortRun tr true .failSpecParse pid
    | some version => phaseNet a e tr pid version (dotify version)

/-- Lines 210-228: checkout or fetch, then branch switch. -/
def phaseSync (a : Args) (e : Env) (tr : List Ev) (pid : Option Nat) : RunRes :=
  if e.pkgDirExists then
    let tr := tr ++ [Ev.gitFetch]
    if e.fetchOk = false then abortRun tr true .failFetch pid
    else
      let tr := tr ++ [Ev.branchSwitch]
      if e.switchOk = false then abortRun tr true .failSwitch pid
      else phaseSpecFile a e tr pid
  else
    let tr := tr ++ [Ev.checkout]
    if e.checkoutOk = false then abortRun tr true .failCheckout pid
    else
      let tr := tr ++ [Ev.branchSwitch]
      if e.switchOk = false then abortRun tr true .failSwitch pid
      else phaseSpecFile a e tr pid

/-- Lines 184-487: one package's processing.  The lock check of lines
186-202: a live owner skips the package with the marker untouched; a stale
integer marker is reported and overwritten; a marker that does not parse as
an integer leaves `is_still_running` false and reaches
`print_fail("Process with PID %i locked but did not release" % pid)` — if
no earlier iteration bound `pid`, that raises UnboundLocalError and the
program crashes; otherwise the stale path continues (reporting a wrong
pid).  Then the marker is (over)written with the current pid and the
pipeline proper runs. -/
def runPackage (a : Args) (e : Env) : RunRes :=
  if e.markerExists then
    match e.markerVal with
    | some p =>
      if e.ownerAlive then RunRes.mk [] .skippedLiveLock true (some p)
      else phaseSync a e [Ev.lockWrite e.myPid] (some p)
    | none =>
      match e.pidPrev with
      | none => RunRes.mk [] .crashed true none
      | some p => phaseSync a e [Ev.lockWrite e.myPid] (some p)
  else phaseSync a e [Ev.lockWrite e.myPid] e.pidPrev

/-! ### Concrete scenarios used by the counterexample and code-bug theorems -/

/-- Baseline flags: a plain run targeting rawhide with the build, mock build
and rawhide sync switched off. -/
def argsBase : Args where
  simulate := false
  checkInstalled := false
  relaxVersionChecks := false
  noBuild := true
  noMockbuild := true
  noRawhideSync := true
  fedoraBranch := str "rawhide"

/-- Baseline environment: no pre-existing lock, every external step
succeeds, current descriptor version `1.1`, one remote version `1.2`
matching the pattern `1.*`. -/
def envBase : Env where
  markerExists := false
  markerVal := none
  ownerAlive := false
  pidPrev := none
  myPid := 7
  pkgDirExists := true
  checkoutOk := true
  fetchOk := true
  switchOk := true
  specExists := true
  specVersion := some (str "1.1")
  netOk := fun _ => true
  jsonOk := true
  remoteVersions := [str "1.2"]
  pattern := str "1.*"
  installed := none
  tarballExists := false
  tarballDlOk := true
  newSourcesOk := true
  prepOk := true
  mockOk := true
  mockResults := true
  commitOk := true
  pushOk := true
  buildOk := true

/-- C1 scenario: the remote list also publishes `2.0`, which fails the
pattern `1.*`, before the matching `1.2`. -/
def envLockBug : Env := { envBase with remoteVersions := [str "2.0", str "1.2"] }

/-- C2 scenario: a pre-existing marker whose contents do not parse as an
integer, met before any other lock check bound the variable `pid`. -/
def envGarbageMarker : Env := { envBase with
  markerExists := true
  markerVal := none
  pidPrev := none }

/-- C3 scenario: every metadata fetch attempt fails. -/
def envNetDown : Env := { envBase with netOk := fun _ => false }

/-- C4 flags: check-installed on. -/
def argsCheckInst : Args := { argsBase with checkInstalled := true }

/-- Flags with check-installed and relaxed version checks. -/
def argsRelaxInst : Args := { argsBase with
  checkInstalled := true
  relaxVersionChecks := true }

/-- C4 scenario: current version `1.0`, remote newest `1.1`, installed
version equal to the remote newest. -/
def envInstEq : Env := { envBase with
  specVersion := some (str "1.0")
  remoteVersions := [str "1.1"]
  pattern := str "*"
  installed := some (str "1.1") }

/-- C6 scenario: current descriptor version `4~rc1` (raw first dot component
`4~rc1`; dot-normalized first component `4`), remote newest `4.0.0`. -/
def envTildeMajor : Env := { envBase with
  specVersion := some (str "4~rc1")
  remoteVersions := [str "4.0.0"]
  pattern := str "4*" }

/-- C7 flags: simulate mode. -/
def argsSimulate : Args := { argsBase with simulate := true }

/-! ## Theorems

### Order lemmas for the version comparator -/

/-- `cmpOf` returns `eq` exactly on equal arguments. -/
theorem cmpOf_eq_iff {α : Type} [LinearOrder α] (a b : α) : cmpOf a b = .eq ↔ a = b := by
  unfold cmpOf
  rcases lt_trichotomy a b with h | h | h
  · simp [h, ne_of_lt h]
  · simp [h, lt_irrefl]
  · simp [lt_asymm h, h, ne_of_gt h]

/-- `cmpOf` returns `lt` exactly when the first argument is smaller. -/
theorem cmpOf_lt_iff {α : Type} [LinearOrder α] (a b : α) : cmpOf a b = .lt ↔ a < b := by
  unfold cmpOf
  rcases lt_trichotomy a b with h | h | h
  · simp [h]
  · simp [h, lt_irrefl]
  · simp [lt_asymm h, h]

/-- `cmpOf` returns `gt` exactly when the second argument is smaller. -/
theorem cmpOf_gt_iff {α : Type} [LinearOrder α] (a b : α) : cmpOf a b = .gt ↔ b < a := by
  unfold cmpOf
  rcases lt_trichotomy a b with h | h | h
  · simp [h, lt_asymm h]
  · simp [h, lt_irrefl]
  · simp [lt_asymm h, h]

/-- `gt` and `lt` of `cmpOf` swap with the arguments. -/
theorem cmpOf_gt_iff_swap {α : Type} [LinearOrder α] (a b : α) :
    cmpOf a b = .gt ↔ cmpOf b a = .lt := by
  rw [cmpOf_gt_iff, cmpOf_lt_iff]

/-- `cmpOf`'s strict order is transitive. -/
theorem cmpOf_lt_trans {α : Type} [LinearOrder α] (a b d : α)
    (h1 : cmpOf a b = .lt) (h2 : cmpOf b d = .lt) : cmpOf a d = .lt := by
  rw [cmpOf_lt_iff] at h1 h2 ⊢
  exact lt_trans h1 h2

/-- Lexicographic comparison returns `eq` exactly on equal lists, provided
the element comparison does. -/
theorem lexCmp_eq_iff {α : Type} {c : α → α → Ordering}
    (hE : ∀ a b, c a b = .eq ↔ a = b) :
    ∀ x y : List α, lexCmp c x y = .eq ↔ x = y := by
  intro x
  induction x with
  | nil => intro y; cases y <;> simp [lexCmp]
  | cons a as ih =>
    intro y
    cases y with
    | nil => simp [lexCmp]
    | cons b bs =>
      cases h : c a b with
      | eq =>
        have hab := (hE a b).mp h
        subst hab
        simp only [lexCmp, h, ih bs]
        simp
      | lt =>
        simp only [lexCmp, h]
        constructor
        · intro hx; exact absurd hx (by decide)
        · intro hx
          injection hx with h1 _
          have := (hE a b).mpr h1
          rw [this] at h
          exact absurd h (by decide)
      | gt =>
        simp only [lexCmp, h]
        constructor
        · intro hx; exact absurd hx (by decide)
        · intro hx
          injection hx with h1 _
          have := (hE a b).mpr h1
          rw [this] at h
          exact absurd h (by decide)

/-- `gt` and `lt` of lexicographic comparison swap with the arguments. -/
theorem lexCmp_gt_iff {α : Type} {c : α → α → Ordering}
    (hE : ∀ a b, c a b = .eq ↔ a = b)
    (hS : ∀ a b, c a b = .gt ↔ c b a = .lt) :
    ∀ x y : List α, lexCmp c x y = .gt ↔ lexCmp c y x = .lt := by
  intro x
  induction x with
  | nil => intro y; cases y <;> simp [lexCmp]
  | cons a as ih =>
    intro y
    cases y with
    | nil => simp [lexCmp]
    | cons b bs =>
      cases h : c a b with
      | eq =>
        have hba : c b a = .eq := (hE b a).mpr ((hE a b).mp h).symm
        simp only [lexCmp, h, hba]
        exact ih bs
      | lt =>
        have hba : c b a = .gt := (hS b a).mpr h
        simp only [lexCmp, h, hba]
        constructor <;> intro hx <;> exact absurd hx (by decide)
      | gt =>
        have hba : c b a = .lt := (hS a b).mp h
        simp only [lexCmp, h, hba]

/-- The strict order of lexicographic comparison is transitive. -/
theorem lexCmp_lt_trans {α : Type} {c : α → α → Ordering}
    (hE : ∀ a b, c a b = .eq ↔ a = b)
    (hT : ∀ a b d, c a b = .lt → c b d = .lt → c a d = .lt) :
    ∀ x y z : List α, lexCmp c x y = .lt → lexCmp c y z = .lt → lexCmp c x z = .lt := by
  intro x
  induction x with
  | nil =>
    intro y z h1 h2
    cases y with
    | nil => exact h2
    | cons b bs =>
      cases z with
      | nil => exact absurd h2 (by simp [lexCmp])
      | cons d ds => simp [lexCmp]
  | cons a as ih =>
    intro y z h1 h2
    cases y with
    | nil => exact absurd h1 (by simp [lexCmp])
    | cons b bs =>
      cases z with
      | nil => exact absurd h2 (by simp [lexCmp])
      | cons d ds =>
        cases hab : c a b with
        | gt => simp only [lexCmp, hab] at h1; exact absurd h1 (by decide)
        | eq =>
          have h1' : lexCmp c as bs = .lt := by simpa only [lexCmp, hab] using h1
          have hab' := (hE a b).mp hab
          subst hab'
          cases had : c a d with
          | gt => simp only [lexCmp, had] at h2; exact absurd h2 (by decide)
          | lt => simp only [lexCmp, had]
          | eq =>
            have h2' : lexCmp c bs ds = .lt := by simpa only [lexCmp, had] using h2
            simp only [lexCmp, had]
            exact ih bs ds h1' h2'
        | lt =>
          cases hbd : c b d with
          | gt => simp only [lexCmp, hbd] at h2; exact absurd h2 (by decide)
          | eq =>
            have hbd' := (hE b d).mp hbd
            subst hbd'
            simp only [lexCmp, hab]
          | lt =>
            simp only [lexCmp, hT a b d hab hbd]

/-- `cmpOf` on characters returns `eq` exactly on equal characters. -/
theorem charE : ∀ a b : Char, cmpOf a b = .eq ↔ a = b := fun a b => cmpOf_eq_iff a b

/-- `cmpOf` on characters swaps `gt` and `lt` with the arguments. -/
theorem charS : ∀ a b : Char, cmpOf a b = .gt ↔ cmpOf b a = .lt :=
  fun a b => cmpOf_gt_iff_swap a b

/-- `cmpOf` on characters has a transitive strict order. -/
theorem charT : ∀ a b d : Char, cmpOf a b = .lt → cmpOf b d = .lt → cmpOf a d = .lt :=
  fun a b d h1 h2 => cmpOf_lt_trans a b d h1 h2

/-- Segment comparison returns `eq` exactly on equal segments. -/
theorem scmp_eq_iff : ∀ a b : Seg, scmp a b = .eq ↔ a = b := by
  intro a b
  cases a <;> cases b <;>
    first
      | (simp only [scmp]
         rw [lexCmp_eq_iff charE]
         simp)
      | (simp only [scmp]
         rw [cmpOf_eq_iff]
         simp [Seg.rank])

/-- Segment comparison swaps `gt` and `lt` with the arguments. -/
theorem scmp_gt_iff : ∀ a b : Seg, scmp a b = .gt ↔ scmp b a = .lt := by
  intro a b
  cases a <;> cases b <;>
    first
      | (simp only [scmp]
         exact lexCmp_gt_iff charE charS _ _)
      | (simp only [scmp]
         exact cmpOf_gt_iff_swap _ _)

/-- Segment comparison has a transitive strict order. -/
theorem scmp_lt_trans : ∀ a b d : Seg, scmp a b = .lt → scmp b d = .lt → scmp a d = .lt := by
  intro a b d
  cases a <;> cases b <;> cases d <;> intro h1 h2 <;>
    first
      | exact lexCmp_lt_trans charE charT _ _ _ h1 h2
      | exact cmpOf_lt_trans _ _ _ h1 h2
      | (exfalso
         revert h1
         simp [scmp, Seg.rank, cmpOf]
         done)
      | (exfalso
         revert h2
         simp [scmp, Seg.rank, cmpOf]
         done)
      | (simp [scmp, Seg.rank, cmpOf]
         done)

/-- Key comparison returns `eq` exactly on equal keys. -/
theorem keyE : ∀ x y : List Seg, lexCmp scmp x y = .eq ↔ x = y :=
  lexCmp_eq_iff scmp_eq_iff

/-- Key comparison swaps `gt` and `lt` with the arguments. -/
theorem keyS : ∀ x y : List Seg, lexCmp scmp x y = .gt ↔ lexCmp scmp y x = .lt :=
  lexCmp_gt_iff scmp_eq_iff scmp_gt_iff

/-- Key comparison has a transitive strict order. -/
theorem keyT : ∀ x y z : List Seg, lexCmp scmp x y = .lt → lexCmp scmp y z = .lt →
    lexCmp scmp x z = .lt :=
  lexCmp_lt_trans scmp_eq_iff scmp_lt_trans

/-- `labelCompare` never reports a string above itself. -/
theorem label_notGt_refl (a : Str) : labelCompare a a ≠ .gt := by
  unfold labelCompare
  rw [(keyE _ _).mpr rfl]
  decide

/-- The non-strict order induced by `labelCompare` (`≠ gt`) is transitive. -/
theorem label_le_trans {x y z : Str}
    (h1 : labelCompare x y ≠ .gt) (h2 : labelCompare y z ≠ .gt) :
    labelCompare x z ≠ .gt := by
  unfold labelCompare at h1 h2 ⊢
  cases o1 : lexCmp scmp (verkey x) (verkey y) with
  | gt => exact absurd o1 h1
  | eq => rw [(keyE _ _).mp o1]; exact h2
  | lt =>
    cases o2 : lexCmp scmp (verkey y) (verkey z) with
    | gt => exact absurd o2 h2
    | eq => rw [← (keyE _ _).mp o2]; rw [o1]; decide
    | lt => rw [keyT _ _ _ o1 o2]; decide

/-- If `labelCompare` reports `a` above `b`, it does not report `b` above `a`. -/
theorem label_gt_asymm {a b : Str} (h : labelCompare a b = .gt) :
    labelCompare b a ≠ .gt := by
  unfold labelCompare at h ⊢
  rw [(keyS _ _).mp h]
  decide

/-! ### The version-selection loop (C5) -/

/-- Invariant of the selection fold: the final best either is the starting
best or is a pattern-matching element of the folded list with its tilde
form attached; the best only grows under `labelCompare`; and every
pattern-matching element of the list ends up no greater than the final
best's tilde form. -/
theorem selectFold (pat : Str) : ∀ (vs : List Str) (st : SelSt),
    ((vs.foldl (selStep pat) st).newest = st.newest ∧
       (vs.foldl (selStep pat) st).newestTilde = st.newestTilde ∨
     ((vs.foldl (selStep pat) st).newest ∈ vs ∧
       matchesAny (vs.foldl (selStep pat) st).newest pat = true ∧
       (vs.foldl (selStep pat) st).newestTilde =
         normalizeVer (vs.foldl (selStep pat) st).newest))
  ∧ labelCompare st.newestTilde (vs.foldl (selStep pat) st).newestTilde ≠ .gt
  ∧ (∀ v ∈ vs, matchesAny v pat = true →
      labelCompare (normalizeVer v) (vs.foldl (selStep pat) st).newestTilde ≠ .gt) := by
  intro vs
  induction vs with
  | nil =>
    intro st
    refine ⟨Or.inl ⟨rfl, rfl⟩, label_notGt_refl _, ?_⟩
    simp
  | cons v vs ih =>
    intro st
    rw [List.foldl_cons]
    obtain ⟨ih1, ih2, ih3⟩ := ih (selStep pat st v)
    by_cases hm : matchesAny v pat = true
    · by_cases hgt : labelCompare (normalizeVer v) st.newestTilde = .gt
      · have hstep : selStep pat st v = SelSt.mk v (normalizeVer v) st.lock st.evs := by
          simp [selStep, hm, hgt]
        rw [hstep] at ih1 ih2 ih3 ⊢
        refine ⟨?_, ?_, ?_⟩
        · rcases ih1 with ⟨he1, he2⟩ | ⟨hmem, hma, hti⟩
          · exact Or.inr ⟨by rw [he1]; exact List.mem_cons_self v vs,
              by rw [he1]; exact hm, by rw [he1, he2]⟩
          · exact Or.inr ⟨List.mem_cons_of_mem v hmem, hma, hti⟩
        · exact label_le_trans (label_gt_asymm hgt) ih2
        · intro w hw hwm
          rcases List.mem_cons.mp hw with hweq | hwmem
          · subst hweq
            exact label_le_trans (label_notGt_refl _) ih2
          · exact ih3 w hwmem hwm
      · have hstep : selStep pat st v = st := by
          simp [selStep, hm, hgt]
        rw [hstep] at ih1 ih2 ih3 ⊢
        refine ⟨?_, ih2, ?_⟩
        · rcases ih1 with h | ⟨hmem, hma, hti⟩
          · exact Or.inl h
          · exact Or.inr ⟨List.mem_cons_of_mem v hmem, hma, hti⟩
        · intro w hw hwm
          rcases List.mem_cons.mp hw with hweq | hwmem
          · subst hweq
            exact label_le_trans hgt ih2
          · exact ih3 w hwmem hwm
    · have hm' : matchesAny v pat = false := by
        cases hx : matchesAny v pat
        · rfl
        · exact absurd hx hm
      have hstep : (selStep pat st v).newest = st.newest ∧
          (selStep pat st v).newestTilde = st.newestTilde := by
        simp only [selStep, hm']
        cases st.lock <;> simp
      refine ⟨?_, ?_, ?_⟩
      · rcases ih1 with ⟨he1, he2⟩ | ⟨hmem, hma, hti⟩
        · exact Or.inl ⟨by rw [he1, hstep.1], by rw [he2, hstep.2]⟩
        · exact Or.inr ⟨List.mem_cons_of_mem v hmem, hma, hti⟩
      · rw [← hstep.2]; exact ih2
      · intro w hw hwm
        rcases List.mem_cons.mp hw with hweq | hwmem
        · subst hweq
          exact absurd hwm (by rw [hm']; decide)
        · exact ih3 w hwmem hwm

/-- C5 (amended): the selection loop of lines 281-302 filters remote
versions by fnmatching their RAW (un-normalized) form against the
comma-separated glob alternatives; among these it selects the maximum under
`labelCompare` of the tilde-normalized forms and never selects a version
whose raw form fails the pattern; when no version matches, the sentinel
`'0'` survives and the run aborts reporting a configuration problem. -/
theorem C5_selector_amended (pat : Str) (vs : List Str) :
    ((selectLoop pat vs).newest ≠ strZero →
       (selectLoop pat vs).newest ∈ vs ∧
       matchesAny (selectLoop pat vs).newest pat = true ∧
       (selectLoop pat vs).newestTilde = normalizeVer (selectLoop pat vs).newest ∧
       ∀ v ∈ vs, matchesAny v pat = true →
         labelCompare (normalizeVer v) (selectLoop pat vs).newestTilde ≠ .gt)
  ∧ ((∀ v ∈ vs, matchesAny v pat = false) → (selectLoop pat vs).newest = strZero)
  ∧ (∀ (a : Args) (e : Env) (tr : List Ev) (pid : Option Nat) (version versionDot : Str),
      e.pattern = pat → e.remoteVersions = vs → (selectLoop pat vs).newest = strZero →
      phaseSelect a e tr pid version versionDot =
        abortRun (tr ++ (selectLoop pat vs).evs) (selectLoop pat vs).lock
          .failNoMatching pid) := by
  obtain ⟨h1, _h2, h3⟩ := selectFold pat vs (SelSt.mk strZero strZero true [])
  refine ⟨?_, ?_, ?_⟩
  · intro hne
    rcases h1 with ⟨he1, _⟩ | ⟨hmem, hma, hti⟩
    · exact absurd he1 hne
    · exact ⟨hmem, hma, hti, h3⟩
  · intro hall
    rcases h1 with ⟨he1, _⟩ | ⟨hmem, hma, _⟩
    · exact he1
    · rw [hall _ hmem] at hma
      exact absurd hma (by decide)
  · intro a e tr pid version versionDot hp hv hz
    unfold phaseSelect
    rw [hp, hv]
    simp only [selectLoop] at hz
    simp [selectLoop, hz]

/-- C5 (counterexample to the claim as stated): the remote version
`1.alpha` is selected although its normalized form `1~alpha` does not match
the acceptance pattern `1.*`; only its raw form does. -/
theorem C5_counterexample :
    (selectLoop (str "1.*") [str "1.alpha"]).newest = str "1.alpha" ∧
    normalizeVer (str "1.alpha") = str "1~alpha" ∧
    matchesAny (str "1~alpha") (str "1.*") = false ∧
    matchesAny (str "1.alpha") (str "1.*") = true := by decide

/-- C5 witness: the amended selector theorem applied to the pattern `1.*`
and the published versions `2.0` and `1.2`. -/
theorem C5_selector_amended_witness :
    (selectLoop (str "1.*") [str "2.0", str "1.2"]).newest ∈ [str "2.0", str "1.2"] ∧
    matchesAny (selectLoop (str "1.*") [str "2.0", str "1.2"]).newest (str "1.*") = true ∧
    (selectLoop (str "1.*") [str "2.0", str "1.2"]).newestTilde =
      normalizeVer (selectLoop (str "1.*") [str "2.0", str "1.2"]).newest ∧
    ∀ v ∈ [str "2.0", str "1.2"], matchesAny v (str "1.*") = true →
      labelCompare (normalizeVer v)
        (selectLoop (str "1.*") [str "2.0", str "1.2"]).newestTilde ≠ .gt :=
  (C5_selector_amended (str "1.*") [str "2.0", str "1.2"]).1 (by decide)

/-! ### The bounded fetch-retry loop (C3) -/

/-- Behaviour of the retry loop `netGo`: at most `f` attempts are made; the
loop succeeds exactly when some attempt in its window succeeds; and when
every attempt fails, the attempts made are exactly the whole window. -/
theorem netGo_spec (ok : Nat → Bool) : ∀ (f i : Nat),
    ((netGo ok i f).1.length ≤ f)
  ∧ ((netGo ok i f).2 = true ↔ ∃ j, i ≤ j ∧ j < i + f ∧ ok j = true)
  ∧ ((netGo ok i f).2 = false → (netGo ok i f).1 = consec i f) := by
  intro f
  induction f with
  | zero =>
    intro i
    refine ⟨by simp [netGo], ?_, by intro _; simp [netGo, consec]⟩
    simp only [netGo]
    constructor
    · intro hx; exact absurd hx (by decide)
    · rintro ⟨j, hj1, hj2, _⟩; omega
  | succ f ih =>
    intro i
    cases h : ok i with
    | true =>
      refine ⟨by simp [netGo, h], ?_, by simp [netGo, h]⟩
      simp only [netGo, h, if_pos]
      constructor
      · intro _; exact ⟨i, le_refl i, by omega, h⟩
      · intro _; trivial
    | false =>
      obtain ⟨ih1, ih2, ih3⟩ := ih (i + 1)
      refine ⟨?_, ?_, ?_⟩
      · simp only [netGo, h, if_neg]
        simpa using Nat.succ_le_succ ih1
      · simp only [netGo, h, if_neg]
        constructor
        · intro hx
          obtain ⟨j, hj1, hj2, hj3⟩ := ih2.mp hx
          exact ⟨j, by omega, by omega, hj3⟩
        · rintro ⟨j, hj1, hj2, hj3⟩
          apply ih2.mpr
          refine ⟨j, ?_, by omega, hj3⟩
          rcases Nat.eq_or_lt_of_le hj1 with rfl | hlt
          · rw [h] at hj3; exact absurd hj3 (by decide)
          · omega
      · intro hx
        simp [netGo, h] at hx ⊢
        rw [consec, ih3 hx]

/-- C3 (amended): `for i in range(1, 20)` makes at most 19 fetch attempts —
not 20.  Every attempt made is surfaced in the trace (`netTry` events, one
per attempt, the failures in order); the run proceeds exactly when some
attempt succeeds; and when all 19 attempts fail the pipeline aborts this
package with the lock released. -/
theorem C3_retry_amended (a : Args) (e : Env) (tr : List Ev) (pid : Option Nat)
    (version versionDot : Str) :
    ((netAttempts e.netOk).1.length ≤ 19)
  ∧ ((netAttempts e.netOk).2 = false ↔ ∀ j, 1 ≤ j → j ≤ 19 → e.netOk j = false)
  ∧ ((netAttempts e.netOk).2 = false → (netAttempts e.netOk).1 = consec 1 19)
  ∧ ((netAttempts e.netOk).2 = false →
      phaseNet a e tr pid version versionDot =
        RunRes.mk (tr ++ (consec 1 19).map Ev.netTry ++ [Ev.unlink]) .failNet false pid)
  ∧ ((netAttempts e.netOk).2 = true →
      phaseNet a e tr pid version versionDot =
        phaseJson a e (tr ++ (netAttempts e.netOk).1.map Ev.netTry) pid version versionDot) := by
  obtain ⟨h1, h2, h3⟩ := netGo_spec e.netOk 19 1
  refine ⟨h1, ?_, h3, ?_, ?_⟩
  · constructor
    · intro hf j hj1 hj2
      cases hx : e.netOk j with
      | false => rfl
      | true =>
        have : (netAttempts e.netOk).2 = true := h2.mpr ⟨j, hj1, by omega, hx⟩
        rw [this] at hf
        exact absurd hf (by decide)
    · intro hall
      cases hx : (netAttempts e.netOk).2 with
      | false => rfl
      | true =>
        obtain ⟨j, hj1, hj2, hj3⟩ := h2.mp hx
        rw [hall j hj1 (by omega)] at hj3
        exact absurd hj3 (by decide)
  · intro hf
    have hf' : (netGo e.netOk 1 19).2 = false := hf
    simp only [phaseNet, netAttempts]
    simp [hf', h3 hf', abortRun]
  · intro ht
    have ht' : (netGo e.netOk 1 19).2 = true := ht
    simp only [phaseNet, netAttempts]
    simp [ht']

/-- C3 (counterexample to the claim as stated): when every fetch fails, the
loop makes exactly 19 attempts, not 20. -/
theorem C3_counterexample :
    (netAttempts (fun _ => false)).1.length = 19 ∧
    ¬ (netAttempts (fun _ => false)).1.length = 20 := by decide

/-- C3 witness: the amended retry theorem applied to the all-failures
environment: the run aborts with `failNet` after the 19 surfaced attempts,
with the lock released. -/
theorem C3_retry_amended_witness :
    phaseNet argsBase envNetDown [] none (str "1.1") (str "1.1") =
      RunRes.mk ((consec 1 19).map Ev.netTry ++ [Ev.unlink]) .failNet false none ∧
    (netAttempts envNetDown.netOk).1.length ≤ 19 := by
  constructor
  · have h := (C3_retry_amended argsBase envNetDown [] none (str "1.1") (str "1.1")).2.2.2.1
      (by decide)
    simpa using h
  · exact (C3_retry_amended argsBase envNetDown [] none (str "1.1") (str "1.1")).1

/-! ### The decision stage: installed-version check and major-version guard
(C4, C6) -/

/-- C4 (amended): the check-installed block of lines 314-327 aborts with a
configuration failure exactly when the installed version differs, as a
string, from the newest raw remote version and compares strictly greater
than its tilde-normalized form; equality of the installed and newest
versions only logs a message and does not itself skip — the benign skip is
decided solely by whether the tilde-normalized newest version exceeds the
descriptor version. -/
theorem C4_installed_amended (a : Args) (e : Env) (tr : List Ev) (pid : Option Nat)
    (version versionDot newest : Str) (lock : Bool) :
    (installedAborts a e newest (normalizeVer newest) = true ↔
       a.checkInstalled = true ∧ ∃ inst, e.installed = some inst ∧ inst ≠ newest ∧
         labelCompare inst (normalizeVer newest) = .gt)
  ∧ (installedAborts a e newest (normalizeVer newest) = true →
       phaseDecide a e tr pid version versionDot newest lock =
         abortRun tr lock .failInstalledNewer pid)
  ∧ (a.checkInstalled = true → e.installed = some newest →
     labelCompare (normalizeVer newest) version = .gt →
     a.relaxVersionChecks = true →
       phaseDecide a e tr pid version versionDot newest lock =
         phaseUpdate a e tr pid lock)
  ∧ (installedAborts a e newest (normalizeVer newest) = false →
     labelCompare (normalizeVer newest) version ≠ .gt →
       phaseDecide a e tr pid version versionDot newest lock =
         abortRun tr lock .noUpdates pid) := by
  refine ⟨?_, ?_, ?_, ?_⟩
  · rcases hi : e.installed with _ | inst <;> simp [installedAborts, hi]
  · intro h
    simp only [phaseDecide]
    rw [if_pos h]
  · intro h1 h2 h3 h4
    have hfalse : installedAborts a e newest (normalizeVer newest) = false := by
      simp [installedAborts, h2]
    simp only [phaseDecide]
    rw [if_neg (by simp [hfalse]), if_neg (by simp [h3]), if_neg (by simp [h4])]
  · intro hfalse hne
    simp only [phaseDecide]
    rw [if_neg (by simp [hfalse]), if_pos hne]

/-- C4 (counterexample to the claim as stated): with check-installed on, an
installed version equal to the newest acceptable remote version (`1.1`)
does not make the run skip: the descriptor version is `1.0`, so the run
rewrites the descriptor, commits and pushes. -/
theorem C4_counterexample :
    argsCheckInst.checkInstalled = true ∧
    envInstEq.installed = some (str "1.1") ∧
    (selectLoop envInstEq.pattern envInstEq.remoteVersions).newest = str "1.1" ∧
    Ev.specRewrite ∈ (runPackage argsCheckInst envInstEq).trace ∧
    Ev.commit ∈ (runPackage argsCheckInst envInstEq).trace ∧
    Ev.push ∈ (runPackage argsCheckInst envInstEq).trace := by decide

/-- C4 witness: the amended theorem applied to the concrete
equal-installed-version scenario: the run proceeds into the update phase. -/
theorem C4_installed_amended_witness :
    phaseDecide argsRelaxInst envInstEq [] none (str "1.0") (str "1.0") (str "1.1") true =
      phaseUpdate argsRelaxInst envInstEq [] none true :=
  (C4_installed_amended argsRelaxInst envInstEq [] none (str "1.0") (str "1.0")
      (str "1.1") true).2.2.1 (by decide) (by decide) (by decide) (by decide)

/-- C6 (amended): the major-version guard of lines 335-342 compares the
first dot-delimited component of the newest remote version with that of the
DOT-NORMALIZED current descriptor version `version_dot` (line 243, tilde
pre-release markers rewritten to dots) — not with that of the raw
descriptor version.  When the guard is active and those components differ,
the decision stage returns the failure result unchanged except for the
final unlock: no download, descriptor rewrite or commit event is added.
With the guard relaxed the stage proceeds into the update phase. -/
theorem C6_guard_amended (a : Args) (e : Env) (tr : List Ev) (pid : Option Nat)
    (version versionDot newest : Str) (lock : Bool) :
    (e.specExists = true → e.specVersion = some version →
       phaseSpecFile a e tr pid = phaseNet a e tr pid version (dotify version))
  ∧ (installedAborts a e newest (normalizeVer newest) = false →
     labelCompare (normalizeVer newest) version = .gt →
     a.relaxVersionChecks = false →
     (splitOn '.' newest).headD [] ≠ (splitOn '.' versionDot).headD [] →
       phaseDecide a e tr pid version versionDot newest lock =
         abortRun tr lock .failMajor pid)
  ∧ (a.relaxVersionChecks = true →
     installedAborts a e newest (normalizeVer newest) = false →
     labelCompare (normalizeVer newest) version = .gt →
       phaseDecide a e tr pid version versionDot newest lock =
         phaseUpdate a e tr pid lock) := by
  refine ⟨?_, ?_, ?_⟩
  · intro h1 h2
    simp [phaseSpecFile, h1, h2]
  · intro hinst hgt hrelax hheads
    simp only [phaseDecide]
    rw [if_neg (by simp [hinst]), if_neg (by simp [hgt]),
      if_pos (by simpa [hrelax] using hheads)]
  · intro hrelax hinst hgt
    simp only [phaseDecide]
    rw [if_neg (by simp [hinst]), if_neg (by simp [hgt]), if_neg (by simp [hrelax])]

/-- C6 (counterexample to the claim as stated): with the guard active,
current descriptor version `4~rc1` and newest remote `4.0.0`, the first
dot-delimited components of the raw strings differ (`4~rc1` vs `4`), yet
the pipeline proceeds — it downloads and commits — because the code
compares against the dot-normalized form `4.rc1`, whose first component is
`4`. -/
theorem C6_counterexample :
    argsBase.relaxVersionChecks = false ∧
    envTildeMajor.specVersion = some (str "4~rc1") ∧
    (selectLoop envTildeMajor.pattern envTildeMajor.remoteVersions).newest = str "4.0.0" ∧
    (splitOn '.' (str "4.0.0")).headD [] ≠ (splitOn '.' (str "4~rc1")).headD [] ∧
    dotify (str "4~rc1") = str "4.rc1" ∧
    (runPackage argsBase envTildeMajor).outcome ≠ .failMajor ∧
    Ev.download ∈ (runPackage argsBase envTildeMajor).trace ∧
    Ev.commit ∈ (runPackage argsBase envTildeMajor).trace := by decide

/-- C6 witness: the amended guard theorem applied to current version `1.0`
and newest `2.0`: the decision stage aborts with `failMajor`, adding no
event but the final unlock. -/
theorem C6_guard_amended_witness :
    phaseDecide argsBase envBase [] none (str "1.0") (str "1.0") (str "2.0") true =
      abortRun [] true .failMajor none :=
  (C6_guard_amended argsBase envBase [] none (str "1.0") (str "1.0")
      (str "2.0") true).2.1 (by decide) (by decide) (by decide) (by decide)

/-! ### Lock lifecycle and simulate mode (C1, C2, C7) -/

/-- C1 (code bug): the `unlock_file(lock_filename); continue` of lines
291-293 sits inside the remote-version filter loop, so the `continue`
continues that inner loop.  With remote versions `[2.0, 1.2]` and pattern
`1.*`, the lock marker is deleted when `2.0` fails the glob, and the run
then continues — downloading, rewriting the descriptor, committing and
pushing — with no lock held; the final `unlock_file` finds nothing to
remove.  The marker is thus removed strictly before the run's exit path,
contradicting the claimed lifecycle. -/
theorem C1_lock_removed_mid_run :
    (runPackage argsBase envLockBug).trace =
      [Ev.lockWrite 7, Ev.gitFetch, Ev.branchSwitch, Ev.netTry 1, Ev.unlink,
       Ev.download, Ev.newSources, Ev.specRewrite, Ev.bumpspec, Ev.prep,
       Ev.commit, Ev.push] ∧
    (runPackage argsBase envLockBug).outcome = .done ∧
    (runPackage argsBase envLockBug).lockFinal = false ∧
    List.indexOf Ev.unlink (runPackage argsBase envLockBug).trace <
      List.indexOf Ev.commit (runPackage argsBase envLockBug).trace := by decide

/-- C2 (code bug): a pre-existing marker whose contents do not parse as an
integer leaves `is_still_running` false, and the stale-lock report
`print_fail("Process with PID %i locked but did not release" % pid)` then
reads the never-assigned variable `pid`: UnboundLocalError, uncaught, and
the whole program crashes — it neither warns-and-overwrites nor proceeds,
and the stale marker file survives. -/
theorem C2_unparsable_marker_crashes :
    runPackage argsBase envGarbageMarker = RunRes.mk [] .crashed true none ∧
    envGarbageMarker.markerExists = true ∧
    envGarbageMarker.markerVal = none := by decide

/-- C7 (code bug): in simulate mode the new-sources upload and the push are
suppressed, but `git commit -a` on line 413 runs unconditionally: the
simulate run's trace contains the commit. -/
theorem C7_simulate_still_commits :
    argsSimulate.simulate = true ∧
    Ev.commit ∈ (runPackage argsSimulate envBase).trace ∧
    Ev.push ∉ (runPackage argsSimulate envBase).trace ∧
    Ev.newSources ∉ (runPackage argsSimulate envBase).trace ∧
    (runPackage argsSimulate envBase).outcome = .simulatedNoPush := by decide

/-! ### The descriptor rewrite (C8, C10) -/

/-- `containsC c l` is false exactly when no element of `l` equals `c`. -/
theorem containsC_false_iff (c : Char) : ∀ l : List Char,
    containsC c l = false ↔ ∀ x ∈ l, x ≠ c := by
  intro l
  induction l with
  | nil => simp [containsC]
  | cons x r ih =>
    constructor
    · intro h y hy
      simp only [containsC, Bool.or_eq_false_iff] at h
      rcases List.mem_cons.mp hy with rfl | hmem
      · exact beq_eq_false_iff_ne.mp h.1
      · exact (ih.mp h.2) y hmem
    · intro h
      simp only [containsC, Bool.or_eq_false_iff]
      exact ⟨beq_eq_false_iff_ne.mpr (h x (List.mem_cons_self x r)),
        ih.mpr (fun y hy => h y (List.mem_cons_of_mem x hy))⟩

/-- `containsC` distributes over append. -/
theorem containsC_append (c : Char) : ∀ a b : List Char,
    containsC c (a ++ b) = (containsC c a || containsC c b) := by
  intro a b
  induction a with
  | nil => simp [containsC]
  | cons x r ih => simp [containsC, ih, Bool.or_assoc]

/-- Dropping while a predicate holds skips a prefix on which it holds
everywhere. -/
theorem dropWhile_all_append (p : Char → Bool) : ∀ (xs ys : List Char),
    (∀ x ∈ xs, p x = true) → List.dropWhile p (xs ++ ys) = List.dropWhile p ys := by
  intro xs ys
  induction xs with
  | nil => intro _; rfl
  | cons x r ih =>
    intro h
    have hx : p x = true := h x (List.mem_cons_self x r)
    simp only [List.cons_append, List.dropWhile_cons, hx, if_true]
    exact ih (fun y hy => h y (List.mem_cons_of_mem x hy))

/-- The prefix before the last occurrence of `sep` in `key ++ sep :: val`
is `key`, when `val` does not contain `sep`. -/
theorem rsplitPre_append (sep : Char) (key val : List Char)
    (hv : ∀ x ∈ val, x ≠ sep) : rsplitPre sep (key ++ sep :: val) = key := by
  unfold rsplitPre
  have hrev : (key ++ sep :: val).reverse = val.reverse ++ sep :: key.reverse := by
    simp [List.reverse_append]
  rw [hrev, dropWhile_all_append]
  · simp [List.dropWhile_cons]
  · intro x hx
    simp only [bne_iff_ne, ne_eq, decide_eq_true_eq]
    exact hv x (List.mem_reverse.mp hx)

/-- A line beginning with none of the recognized keys is copied unchanged
by the per-line rewrite. -/
theorem processLine_frame (newTilde versionDot newVer line : Str)
    (h1 : startsW (str "Version:") line = false)
    (h2 : startsW (str "Release:") line = false)
    (h3 : startsW (str "Source:") line = false)
    (h4 : startsW (str "Source0:") line = false) :
    processLine newTilde versionDot newVer line = line := by
  simp [processLine, h1, h2, h3, h4]

/-- C8: the descriptor rewrite of lines 371-385 copies every line that does
not begin with a recognized key (`Version:`, `Release:`, `Source:`,
`Source0:`) unchanged byte for byte — so rewriting a file with no
recognized keys is the identity — and `replace_spec_value` preserves the
original key/value separator character, space or tab, on the lines it does
change. -/
theorem C8_descriptor_frame (newTilde versionDot newVer : Str) :
    (∀ line : Str,
       startsW (str "Version:") line = false →
       startsW (str "Release:") line = false →
       startsW (str "Source:") line = false →
       startsW (str "Source0:") line = false →
       processLine newTilde versionDot newVer line = line)
  ∧ (∀ file : List Str,
       (∀ l ∈ file, startsW (str "Version:") l = false ∧
         startsW (str "Release:") l = false ∧ startsW (str "Source:") l = false ∧
         startsW (str "Source0:") l = false) →
       processSpec newTilde versionDot newVer file = file)
  ∧ (∀ (key val rep : Str) (sep : Char), sep = ' ' ∨ sep = '\t' →
       containsC ' ' key = false → containsC '\t' key = false →
       containsC ' ' val = false → containsC '\t' val = false →
       replace_spec_value (key ++ sep :: val) rep = key ++ sep :: rep) := by
  refine ⟨?_, ?_, ?_⟩
  · intro line h1 h2 h3 h4
    exact processLine_frame newTilde versionDot newVer line h1 h2 h3 h4
  · intro file hall
    unfold processSpec
    induction file with
    | nil => rfl
    | cons l f ih =>
      have hl := hall l (List.mem_cons_self l f)
      rw [List.map_cons,
        processLine_frame newTilde versionDot newVer l hl.1 hl.2.1 hl.2.2.1 hl.2.2.2,
        ih (fun x hx => hall x (List.mem_cons_of_mem l hx))]
  · intro key val rep sep hsep hk1 hk2 hv1 hv2
    rcases hsep with rfl | rfl
    · have hcond : containsC ' ' (key ++ ' ' :: val) = true := by
        simp [containsC_append, containsC]
      rw [replace_spec_value, if_pos hcond,
        rsplitPre_append ' ' key val ((containsC_false_iff ' ' val).mp hv1)]
    · have hcond1 : containsC ' ' (key ++ '\t' :: val) = false := by
        simp [containsC_append, containsC, hk1, hv1]
      have hcond2 : containsC '\t' (key ++ '\t' :: val) = true := by
        simp [containsC_append, containsC]
      rw [replace_spec_value, if_neg (by simp [hcond1]), if_pos hcond2,
        rsplitPre_append '\t' key val ((containsC_false_iff '\t' val).mp hv2)]

/-- C8 witness: an unrelated line is copied unchanged, and a tab-separated
`Version:` line keeps its tab separator. -/
theorem C8_descriptor_frame_witness :
    processLine (str "3.44.1") (str "3.44.0") (str "3.44.1") (str "Name: pkg\n") =
      str "Name: pkg\n" ∧
    replace_spec_value (str "Version:" ++ '\t' :: str "1.0") (str "2.0") =
      str "Version:" ++ '\t' :: str "2.0" := by
  constructor
  · exact (C8_descriptor_frame (str "3.44.1") (str "3.44.0") (str "3.44.1")).1
      (str "Name: pkg\n") (by decide) (by decide) (by decide) (by decide)
  · exact (C8_descriptor_frame (str "3.44.1") (str "3.44.0") (str "3.44.1")).2.2
      (str "Version:") (str "1.0") (str "2.0") '\t' (Or.inr rfl)
      (by decide) (by decide) (by decide) (by decide)

/-- C10: a line containing neither a space nor a tab is returned unchanged
by `replace_spec_value` whatever the replacement, so a `Version:` line
whose key and value are not separated by whitespace is silently left
un-updated by the descriptor rewrite. -/
theorem C10_missing_separator (line rep : Str)
    (h1 : containsC ' ' line = false) (h2 : containsC '\t' line = false) :
    replace_spec_value line rep = line ∧
    ∀ newTilde versionDot newVer : Str, startsW (str "Version:") line = true →
      processLine newTilde versionDot newVer line = line := by
  have hr : ∀ rep' : Str, replace_spec_value line rep' = line := by
    intro rep'
    simp [replace_spec_value, h1, h2]
  refine ⟨hr rep, ?_⟩
  intro newTilde versionDot newVer hv
  simp [processLine, hv, hr]

/-- C10 witness: the line `Version:1.2.3` (no whitespace separator) is left
unchanged by `replace_spec_value` and by the full per-line rewrite. -/
theorem C10_missing_separator_witness :
    replace_spec_value (str "Version:1.2.3\n") (str "9.9") = str "Version:1.2.3\n" ∧
    ∀ newTilde versionDot newVer : Str,
      startsW (str "Version:") (str "Version:1.2.3\n") = true →
      processLine newTilde versionDot newVer (str "Version:1.2.3\n") =
        str "Version:1.2.3\n" :=
  C10_missing_separator (str "Version:1.2.3\n") (str "9.9") (by decide) (by decide)

/-! ### Idempotence of the pre-release normalization (C9) -/

/-- `litSplit` splits off exactly the literal it reports. -/
theorem litSplit_sound {l : List Char} {lit rest : List Char}
    (h : litSplit l = some (lit, rest)) : l = lit ++ rest ∧ lit ∈ lits := by
  unfold litSplit at h
  split_ifs at h with h5 h4 h2
  · injection h with h'
    injection h' with ha hb
    subst ha; subst hb
    refine ⟨?_, by simp [lits]⟩
    conv_lhs => rw [← List.take_append_drop 5 l]
    rw [h5]
  · injection h with h'
    injection h' with ha hb
    subst ha; subst hb
    refine ⟨?_, by simp [lits]⟩
    conv_lhs => rw [← List.take_append_drop 4 l]
    rw [h4]
  · injection h with h'
    injection h' with ha hb
    subst ha; subst hb
    refine ⟨?_, by simp [lits]⟩
    conv_lhs => rw [← List.take_append_drop 2 l]
    rw [h2]

/-- `litSplit` recognises each literal at the head of a list. -/
theorem litSplit_lit {L : Str} (hL : L ∈ lits) (t : List Char) :
    litSplit (L ++ t) = some (L, t) := by
  simp only [lits, List.mem_cons, List.not_mem_nil, or_false] at hL
  rcases hL with rfl | rfl | rfl
  · simp [litSplit, alphaL, str, List.take, List.drop]
  · simp [litSplit, alphaL, betaL, str, List.take, List.drop]
  · simp [litSplit, alphaL, betaL, rcL, str, List.take, List.drop]

/-- Soundness of the greedy split search: a reported match reassembles the
input, its digits part is nonempty and all digits, its separator is
admissible and its literal is one of the three. -/
theorem trySplit_sound (sepOk : Char → Bool) : ∀ (drev tail : List Char)
    (D : Str) (sep : Char) (L : Str) (rest : List Char),
    (∀ x ∈ drev, x.isDigit = true) →
    trySplit sepOk drev tail = some (D, sep, L, rest) →
    drev.reverse ++ tail = D ++ sep :: (L ++ rest) ∧ D ≠ [] ∧
      (∀ x ∈ D, x.isDigit = true) ∧ sepOk sep = true ∧ L ∈ lits := by
  intro drev
  induction drev with
  | nil => intro tail D sep L rest _ h; exact absurd h (by simp [trySplit])
  | cons d ds ih =>
    intro tail D sep L rest hdig h
    have hdig' : ∀ x ∈ ds, x.isDigit = true :=
      fun x hx => hdig x (List.mem_cons_of_mem d hx)
    cases tail with
    | nil =>
      have h' : trySplit sepOk ds [d] = some (D, sep, L, rest) := h
      have := ih [d] D sep L rest hdig' h'
      refine ⟨?_, this.2⟩
      rw [← this.1]
      simp
    | cons s t2 =>
      by_cases hs : sepOk s = true
      · cases hlit : litSplit t2 with
        | some p =>
          obtain ⟨lit, rest0⟩ := p
          have h' : some ((d :: ds).reverse, s, lit, rest0) = some (D, sep, L, rest) := by
            simpa only [trySplit, hs, if_pos, hlit] using h
          injection h' with h''
          injection h'' with hD h''
          injection h'' with hsep h''
          injection h'' with hL hrest
          subst hD; subst hsep; subst hL; subst hrest
          obtain ⟨hre, hlitmem⟩ := litSplit_sound hlit
          refine ⟨by rw [hre], by simp, ?_, hs, hlitmem⟩
          intro x hx
          exact hdig x (List.mem_reverse.mp hx)
        | none =>
          have h' : trySplit sepOk ds (d :: s :: t2) = some (D, sep, L, rest) := by
            simpa only [trySplit, hs, if_pos, hlit] using h
          have := ih (d :: s :: t2) D sep L rest hdig' h'
          refine ⟨?_, this.2⟩
          rw [← this.1]
          simp
      · have h' : trySplit sepOk ds (d :: s :: t2) = some (D, sep, L, rest) := by
          simpa only [trySplit, hs, if_neg] using h
        have := ih (d :: s :: t2) D sep L rest hdig' h'
        refine ⟨?_, this.2⟩
        rw [← this.1]
        simp

/-- All elements of `takeWhile p` satisfy `p`. -/
theorem takeWhile_all (p : Char → Bool) : ∀ (l : List Char) (x : Char),
    x ∈ l.takeWhile p → p x = true := by
  intro l
  induction l with
  | nil => intro x hx; simp [List.takeWhile] at hx
  | cons c r ih =>
    intro x hx
    rw [List.takeWhile_cons] at hx
    by_cases hc : p c = true
    · rw [if_pos hc] at hx
      rcases List.mem_cons.mp hx with rfl | hmem
      · exact hc
      · exact ih x hmem
    · rw [if_neg hc] at hx
      simp at hx

/-- Soundness of the anchored matcher. -/
theorem matchAt_sound (sepOk : Char → Bool) (l : List Char)
    (D : Str) (sep : Char) (L : Str) (rest : List Char)
    (h : matchAt sepOk l = some (D, sep, L, rest)) :
    l = D ++ sep :: (L ++ rest) ∧ D ≠ [] ∧ (∀ x ∈ D, x.isDigit = true) ∧
      sepOk sep = true ∧ L ∈ lits := by
  unfold matchAt at h
  have hdig : ∀ x ∈ (l.takeWhile Char.isDigit).reverse, x.isDigit = true :=
    fun x hx => takeWhile_all Char.isDigit l x (List.mem_reverse.mp hx)
  have hs := trySplit_sound sepOk _ _ D sep L rest hdig h
  refine ⟨?_, hs.2⟩
  rw [← hs.1, List.reverse_reverse, List.takeWhile_append_dropWhile]

/-- A match consumes at least one character: the rest is shorter. -/
theorem matchAt_rest_lt (sepOk : Char → Bool) (l : List Char)
    (D : Str) (sep : Char) (L : Str) (rest : List Char)
    (h : matchAt sepOk l = some (D, sep, L, rest)) : rest.length < l.length := by
  obtain ⟨hl, hD, _, _, _⟩ := matchAt_sound sepOk l D sep L rest h
  rw [hl]
  simp only [List.length_append, List.length_cons]
  have : 1 ≤ D.length := by
    cases D with
    | nil => exact absurd rfl hD
    | cons _ _ => simp
  omega

/-- `presubGo` on the empty list ignores the fuel. -/
theorem presubGo_nil (sepOk : Char → Bool) (rep : Char) (f : Nat) :
    presubGo sepOk rep f [] = [] := by
  cases f <;> rfl

/-- `presubGo` is independent of the fuel once it covers the input length. -/
theorem presubGo_fuel (sepOk : Char → Bool) (rep : Char) : ∀ (n : Nat) (l : List Char)
    (f g : Nat), l.length ≤ n → l.length ≤ f → l.length ≤ g →
    presubGo sepOk rep f l = presubGo sepOk rep g l := by
  intro n
  induction n with
  | zero =>
    intro l f g hn _ _
    have : l = [] := List.length_eq_zero.mp (Nat.le_zero.mp hn)
    subst this
    rw [presubGo_nil, presubGo_nil]
  | succ n ih =>
    intro l f g hn hf hg
    cases l with
    | nil => rw [presubGo_nil, presubGo_nil]
    | cons c r =>
      obtain ⟨f', rfl⟩ : ∃ f', f = f' + 1 := by
        cases f with
        | zero => simp at hf
        | succ k => exact ⟨k, rfl⟩
      obtain ⟨g', rfl⟩ : ∃ g', g = g' + 1 := by
        cases g with
        | zero => simp at hg
        | succ k => exact ⟨k, rfl⟩
      simp only [presubGo]
      cases hm : matchAt sepOk (c :: r) with
      | none =>
        simp only []
        rw [ih r f' g' (by simpa using Nat.lt_succ_iff.mp (lt_of_lt_of_le (Nat.lt_succ_self _) (by simpa using hn)))
          (by simpa using hf) (by simpa using hg)]
      | some q =>
        obtain ⟨D, sep, L, rest⟩ := q
        have hlt := matchAt_rest_lt sepOk (c :: r) D sep L rest hm
        simp only []
        rw [ih rest f' g' (by omega) (by simpa using Nat.lt_succ_iff.mp (lt_of_lt_of_le hlt (by simpa using hf)))
          (by simpa using Nat.lt_succ_iff.mp (lt_of_lt_of_le hlt (by simpa using hg)))]

/-- Unfolding of `presub` on a match at the head. -/
theorem presub_match (sepOk : Char → Bool) (rep : Char) {l : List Char}
    {D : Str} {sep : Char} {L : Str} {rest : List Char}
    (h : matchAt sepOk l = some (D, sep, L, rest)) :
    presub sepOk rep l = D ++ rep :: (L ++ presub sepOk rep rest) := by
  cases l with
  | nil => exact absurd h (by simp [matchAt, trySplit])
  | cons c r =>
    have hlt := matchAt_rest_lt sepOk (c :: r) D sep L rest h
    unfold presub
    simp only [List.length_cons, presubGo, h]
    rw [presubGo_fuel sepOk rep rest.length rest r.length rest.length (le_refl _)
      (by simpa using Nat.lt_succ_iff.mp hlt) (le_refl _)]

/-- Unfolding of `presub` with no match at the head. -/
theorem presub_nomatch (sepOk : Char → Bool) (rep : Char) {c : Char} {r : List Char}
    (h : matchAt sepOk (c :: r) = none) :
    presub sepOk rep (c :: r) = c :: presub sepOk rep r := by
  unfold presub
  simp only [List.length_cons, presubGo, h]

/-- `takeWhile`/`dropWhile` split exactly at the first failing element. -/
theorem takeWhile_exact (p : Char → Bool) : ∀ (D : List Char) (c : Char) (X : List Char),
    (∀ x ∈ D, p x = true) → p c = false →
    (D ++ c :: X).takeWhile p = D ∧ (D ++ c :: X).dropWhile p = c :: X := by
  intro D
  induction D with
  | nil =>
    intro c X _ hc
    simp [List.takeWhile_cons, List.dropWhile_cons, hc]
  | cons d D' ih =>
    intro c X hall hc
    have hd : p d = true := hall d (List.mem_cons_self d D')
    have := ih c X (fun x hx => hall x (List.mem_cons_of_mem d hx)) hc
    simp only [List.cons_append, List.takeWhile_cons, List.dropWhile_cons, hd, if_true]
    exact ⟨by rw [this.1], by rw [this.2]⟩

/-- The digit characters are not `~`. -/
theorem digit_ne_tilde {x : Char} (hx : x.isDigit = true) : x ≠ '~' := by
  intro h
  rw [h] at hx
  exact absurd hx (by decide)

/-- A replaced region `D ++ ~ :: L` matches again at its head, with exactly
the same digits and literal. -/
theorem matchAt_replaced (D L : Str) (t : List Char)
    (hD : D ≠ []) (hdig : ∀ x ∈ D, x.isDigit = true) (hL : L ∈ lits) :
    matchAt nonNl (D ++ '~' :: (L ++ t)) = some (D, '~', L, t) := by
  have hsplit := takeWhile_exact Char.isDigit D '~' (L ++ t) hdig (by decide)
  unfold matchAt
  rw [hsplit.1, hsplit.2]
  obtain ⟨d, ds, hrev⟩ : ∃ d ds, D.reverse = d :: ds := by
    cases hr : D.reverse with
    | nil => exact absurd (by simpa using hr) hD
    | cons d ds => exact ⟨d, ds, rfl⟩
  rw [hrev]
  simp only [trySplit, litSplit_lit hL t]
  rw [if_pos (by decide)]
  rw [← hrev, List.reverse_reverse]

/-- `Tld` is reflexive. -/
theorem Tld_refl : ∀ l : List Char, Tld l l := by
  intro l
  induction l with
  | nil => exact Tld.nil
  | cons c r ih => exact Tld.keep c ih

/-- `Tld` is preserved by prepending a common prefix. -/
theorem Tld_append (x : List Char) {a b : List Char} (h : Tld a b) :
    Tld (x ++ a) (x ++ b) := by
  induction x with
  | nil => exact h
  | cons c r ih => exact Tld.keep c ih

/-- A `Tld`-image decomposes along a decomposition of its target. -/
theorem Tld_split : ∀ (x : List Char) {a b : List Char}, Tld a (x ++ b) →
    ∃ ax ab, a = ax ++ ab ∧ Tld ax x ∧ Tld ab b := by
  intro x
  induction x with
  | nil =>
    intro a b h
    exact ⟨[], a, rfl, Tld.nil, h⟩
  | cons c x' ih =>
    intro a b h
    rw [List.cons_append] at h
    cases h with
    | keep _ h' =>
      obtain ⟨ax, ab, rfl, h1, h2⟩ := ih h'
      exact ⟨c :: ax, ab, rfl, Tld.keep c h1, h2⟩
    | chg c0 hne h' =>
      obtain ⟨ax, ab, rfl, h1, h2⟩ := ih h'
      exact ⟨c0 :: ax, ab, rfl, Tld.chg c0 hne h1, h2⟩

/-- When the target of `Tld` contains no `~`, nothing was changed. -/
theorem Tld_eq_of_no_tilde : ∀ {a b : List Char}, Tld a b →
    (∀ x ∈ b, x ≠ '~') → a = b := by
  intro a b h
  induction h with
  | nil => intro _; rfl
  | keep c _ ih =>
    intro hb
    rw [ih (fun x hx => hb x (List.mem_cons_of_mem c hx))]
  | chg c0 hne _ ih =>
    intro hb
    exact absurd rfl (hb '~' (List.mem_cons_self '~' _))

/-- The literals contain no `~`. -/
theorem lit_no_tilde {L : Str} (hL : L ∈ lits) : ∀ x ∈ L, x ≠ '~' := by
  simp only [lits, List.mem_cons, List.not_mem_nil, or_false] at hL
  rcases hL with rfl | rfl | rfl <;> decide

/-- Completeness of the greedy split search: when it reports no match, no
decomposition using at most the available digits exists. -/
theorem trySplit_none_no_split (sepOk : Char → Bool) : ∀ (drev tail : List Char),
    trySplit sepOk drev tail = none →
    ∀ (n : Nat) (sep : Char) (L rest : List Char),
      1 ≤ n → n ≤ drev.length →
      drev.reverse ++ tail = drev.reverse.take n ++ sep :: (L ++ rest) →
      sepOk sep = true → L ∈ lits → False := by
  intro drev
  induction drev with
  | nil =>
    intro tail _ n sep L rest hn1 hn2 _ _ _
    simp at hn2
    omega
  | cons d ds ih =>
    intro tail h n sep L rest hn1 hn2 heq hsep hL
    by_cases hnlt : n ≤ ds.length
    · have hrec : trySplit sepOk ds (d :: tail) = none := by
        cases tail with
        | nil => exact h
        | cons s t2 =>
          by_cases hs : sepOk s = true
          · cases hlit : litSplit t2 with
            | some p =>
              exact absurd h (by simp [trySplit, hs, hlit])
            | none =>
              simpa only [trySplit, hs, if_pos, hlit] using h
          · simpa only [trySplit, hs, if_neg] using h
      apply ih (d :: tail) hrec n sep L rest hn1 hnlt _ hsep hL
      have h1 : (d :: ds).reverse ++ tail = ds.reverse ++ (d :: tail) := by simp
      have h2 : (d :: ds).reverse.take n = ds.reverse.take n := by
        rw [List.reverse_cons, List.take_append_of_le_length (by simpa using hnlt)]
      rw [← h1, ← h2]
      exact heq
    · have hn : n = ds.length + 1 := by
        simp only [List.length_cons] at hn2
        omega
      have htake : (d :: ds).reverse.take n = (d :: ds).reverse := by
        apply List.take_of_length_le
        simp [hn]
      rw [htake] at heq
      have htail : tail = sep :: (L ++ rest) := by
        have := List.append_cancel_left heq
        exact this
      subst htail
      have hlit2 : litSplit (L ++ rest) = some (L, rest) := litSplit_lit hL rest
      exact absurd h (by simp [trySplit, hsep, hlit2])

/-- An all-digit prefix of `l` is an initial segment of `takeWhile isDigit l`. -/
theorem digits_prefix_take (p : Char → Bool) : ∀ (D z : List Char),
    (∀ x ∈ D, p x = true) →
    ((D ++ z).takeWhile p).take D.length = D ∧
      D.length ≤ ((D ++ z).takeWhile p).length := by
  intro D
  induction D with
  | nil => intro z _; simp
  | cons c D' ih =>
    intro z hall
    have hc : p c = true := hall c (List.mem_cons_self c D')
    have := ih z (fun x hx => hall x (List.mem_cons_of_mem c hx))
    simp only [List.cons_append, List.takeWhile_cons, hc, if_true, List.length_cons,
      List.take_succ_cons]
    exact ⟨by rw [this.1], by simpa using Nat.succ_le_succ this.2⟩

/-- Completeness of the anchored matcher: a head decomposition forces a
match. -/
theorem matchAt_of_hasM (sepOk : Char → Bool) (l : List Char)
    (hm : HasM sepOk l) : matchAt sepOk l ≠ none := by
  obtain ⟨D, sep, L, rest, hl, hD, hdig, hsep, hL⟩ := hm
  intro hnone
  unfold matchAt at hnone
  have hpre := digits_prefix_take Char.isDigit D (sep :: (L ++ rest)) hdig
  rw [← hl] at hpre
  apply trySplit_none_no_split sepOk _ _ hnone D.length sep L rest ?h1 ?h2 ?h3 hsep hL
  case h1 =>
    cases D with
    | nil => exact absurd rfl hD
    | cons _ _ => simp
  case h2 => simpa using hpre.2
  case h3 =>
    rw [List.reverse_reverse, List.takeWhile_append_dropWhile, hpre.1]
    exact hl

/-- One pass of the normalization only keeps characters or replaces
non-newline characters by `~`. -/
theorem presub_tld : ∀ (n : Nat) (l : List Char), l.length ≤ n →
    Tld l (presub nonNl '~' l) := by
  intro n
  induction n with
  | zero =>
    intro l hn
    have : l = [] := List.length_eq_zero.mp (Nat.le_zero.mp hn)
    subst this
    exact Tld.nil
  | succ n ih =>
    intro l hn
    cases l with
    | nil => exact Tld.nil
    | cons c r =>
      cases hm : matchAt nonNl (c :: r) with
      | none =>
        rw [presub_nomatch nonNl '~' hm]
        exact Tld.keep c (ih r (by simpa using hn))
      | some q =>
        obtain ⟨D, sep, L, rest⟩ := q
        obtain ⟨hl, hD, hdig, hsep, hL⟩ := matchAt_sound nonNl (c :: r) D sep L rest hm
        have hlt := matchAt_rest_lt nonNl (c :: r) D sep L rest hm
        rw [presub_match nonNl '~' hm, hl]
        apply Tld_append D
        have hsep' : sep ≠ '\n' := by
          simpa [nonNl, bne_iff_ne] using hsep
        apply Tld.chg sep hsep'
        apply Tld_append L
        apply ih rest
        have : rest.length < (c :: r).length := hlt
        simp only [List.length_cons] at this hn
        omega

/-- A head match survives backwards along `Tld`: if the substituted string
has a match shape, so does the original. -/
theorem Tld_hasM {a b : List Char} (ht : Tld a b) (hm : HasM nonNl b) :
    HasM nonNl a := by
  obtain ⟨D, sep, L, rest, hb, hD, hdig, hsep, hL⟩ := hm
  subst hb
  obtain ⟨aD, a1, rfl, h1, h2⟩ := Tld_split D ht
  have haD : aD = D :=
    Tld_eq_of_no_tilde h1 (fun x hx => digit_ne_tilde (hdig x hx))
  subst haD
  cases h2 with
  | keep _ h3 =>
    obtain ⟨aL, a3, rfl, h4, h5⟩ := Tld_split L h3
    have haL : aL = L := Tld_eq_of_no_tilde h4 (lit_no_tilde hL)
    subst haL
    exact ⟨aD, sep, aL, a3, rfl, hD, hdig, hsep, hL⟩
  | chg c0 hne h3 =>
    obtain ⟨aL, a3, rfl, h4, h5⟩ := Tld_split L h3
    have haL : aL = L := Tld_eq_of_no_tilde h4 (lit_no_tilde hL)
    subst haL
    refine ⟨aD, c0, aL, a3, rfl, hD, hdig, ?_, hL⟩
    simpa [nonNl, bne_iff_ne] using hne

/-- Absence of a head match is preserved when the tail is normalized. -/
theorem matchAt_none_pres (c : Char) (r r' : List Char)
    (h : matchAt nonNl (c :: r) = none) (ht : Tld r r') :
    matchAt nonNl (c :: r') = none := by
  cases hm : matchAt nonNl (c :: r') with
  | none => rfl
  | some q =>
    obtain ⟨D, sep, L, rest⟩ := q
    obtain ⟨hl, hD, hdig, hsep, hL⟩ := matchAt_sound nonNl (c :: r') D sep L rest hm
    have hM : HasM nonNl (c :: r') := ⟨D, sep, L, rest, hl, hD, hdig, hsep, hL⟩
    have hM' : HasM nonNl (c :: r) := Tld_hasM (Tld.keep c ht) hM
    exact absurd h (matchAt_of_hasM nonNl (c :: r) hM')

/-- The pre-release normalization is idempotent (auxiliary induction on a
length bound). -/
theorem presub_idem_aux : ∀ (n : Nat) (l : List Char), l.length ≤ n →
    presub nonNl '~' (presub nonNl '~' l) = presub nonNl '~' l := by
  intro n
  induction n with
  | zero =>
    intro l hn
    have : l = [] := List.length_eq_zero.mp (Nat.le_zero.mp hn)
    subst this
    rfl
  | succ n ih =>
    intro l hn
    cases l with
    | nil => rfl
    | cons c r =>
      cases hm : matchAt nonNl (c :: r) with
      | none =>
        rw [presub_nomatch nonNl '~' hm]
        have ht : Tld r (presub nonNl '~' r) := presub_tld r.length r (le_refl _)
        rw [presub_nomatch nonNl '~' (matchAt_none_pres c r _ hm ht)]
        rw [ih r (by simpa using hn)]
      | some q =>
        obtain ⟨D, sep, L, rest⟩ := q
        obtain ⟨hl, hD, hdig, hsep, hL⟩ := matchAt_sound nonNl (c :: r) D sep L rest hm
        have hlt := matchAt_rest_lt nonNl (c :: r) D sep L rest hm
        rw [presub_match nonNl '~' hm]
        rw [presub_match nonNl '~' (matchAt_replaced D L (presub nonNl '~' rest) hD hdig hL)]
        rw [ih rest ?hrest]
        case hrest =>
          simp only [List.length_cons] at hlt hn
          omega

/-- C9: the pre-release normalization of lines 285/306 — rewriting
`<number><separator><alpha|beta|rc>` into the canonical tilde form — is
idempotent: normalizing twice equals normalizing once, for every version
string. -/
theorem C9_normalize_idem (v : Str) : normalizeVer (normalizeVer v) = normalizeVer v :=
  presub_idem_aux v.length v (le_refl _)
